import Mathlib

/-!
# Verification of the MSTL decomposition core

A shallow embedding of `src/crates/augurs-mstl/src/mstl.rs` (the `MSTL`
struct, its `fit` / `seasonal_windows` / `process_periods` methods and the
`MSTLDecomposition` result type), together with proofs of the specified
properties.

Modelling choices:
* Series values are exact rationals (`ℚ`): the floating-point `f64`
  arithmetic of the source is elementwise addition/subtraction only, so the
  algebraic structure is faithfully captured; claims about approximate
  identities become exact identities over `ℚ`.
* The external single-season STL primitive (`stlrs::StlParams::fit`) is an
  opaque oracle parameter `stl : ℕ → List ℚ → ℕ → Except String StlResult`
  taking the seasonal window, the (deseasonalized) series and the period,
  exactly the data the source passes to it.  Its failure is wrapped in a
  dedicated error constructor, mirroring the `?`-conversion of the
  `stlrs` error into the crate error type.
* `HashMap<usize, Vec<f64>>` is modelled as an association list with
  insert-or-replace semantics (`alist_insert` / `alist_get`); building such
  a map from an iterator of key/value pairs inserts each pair in turn.
* In-place mutation of `Vec` buffers becomes explicit state passing: the
  loop state (`deseas`, the seasonal map, the most recent fit `res`) is a
  `LoopState` record threaded through the loops.
* `iter_mut().zip(...)` elementwise updates stop at the shorter of the two
  sequences while the mutated vector keeps its length; `zip_add` / `zip_sub`
  reproduce this exactly.
* A `.unwrap()` panic (impossible on the paths actually taken, which we
  prove) is modelled as a dedicated `Error.panicked` value.
* An instrumented copy of the loop (`mstl_step_t` etc.) additionally
  records the trace of oracle calls, to state claims about how many calls
  are made and which call the final trend/weights come from; it is proved
  equivalent to the plain embedding.
-/

namespace Mstl

/-- Result of one single-season STL fit, with the fields the MSTL core
reads: `seasonal`, `trend` and the robust `weights`. -/
structure StlResult where
  seasonal : List ℚ
  trend : List ℚ
  weights : List ℚ
  deriving Repr, DecidableEq

/-- The crate error type, restricted to the variants reachable from
`MSTL::fit`: `mstl` carries the message of an `Error::MSTL(String)`,
`stl` wraps a failure of the external STL primitive, and `panicked`
models a Rust panic (the `unwrap` in the loop body). -/
inductive Error where
  | mstl : String → Error
  | stl : String → Error
  | panicked : Error
  deriving Repr, DecidableEq

/-- The error produced by period validation
(`Error::MSTL("non-seasonal data not supported")`), the spec's
`InvalidInput`. -/
def invalid_input_error : Error := Error.mstl "non-seasonal data not supported"

/-- The error produced when no STL fit was made
(`Error::MSTL("no STL fit")`), the spec's `NoFitProduced`. -/
def no_fit_error : Error := Error.mstl "no STL fit"

deriving instance DecidableEq for Except

/-- The external single-season STL primitive: seasonal window, series,
period ↦ result or failure. -/
abbrev Oracle := ℕ → List ℚ → ℕ → Except String StlResult

/-- `d.iter_mut().zip(s.iter()).for_each(|(d, s)| *d += *s)`: elementwise
addition over the common prefix; `d` keeps its length. -/
def zip_add (d s : List ℚ) : List ℚ :=
  List.zipWith (· + ·) d s ++ d.drop s.length

/-- `d.iter_mut().zip(s.iter()).for_each(|(d, s)| *d -= *s)`: elementwise
subtraction over the common prefix; `d` keeps its length. -/
def zip_sub (d s : List ℚ) : List ℚ :=
  List.zipWith (· - ·) d s ++ d.drop s.length

/-- The `HashMap<usize, Vec<f64>>` of seasonal components, as an
association list. -/
abbrev SeasMap := List (ℕ × List ℚ)

/-- `HashMap::get`. -/
def alist_get (m : SeasMap) (k : ℕ) : Option (List ℚ) :=
  (m.find? (fun kv => kv.1 == k)).map (fun kv => kv.2)

/-- `HashMap::insert`: replace the entry with key `k` if present,
otherwise add one. -/
def alist_insert (m : SeasMap) (k : ℕ) (v : List ℚ) : SeasMap :=
  if m.any (fun kv => kv.1 == k) then
    m.map (fun kv => if kv.1 = k then (k, v) else kv)
  else
    m ++ [(k, v)]

/-- The keys of the map. -/
def alist_keys (m : SeasMap) : List ℕ := m.map Prod.fst

/-- `MSTL::process_periods`, with the mutation made explicit: given the
series length `n` and the caller's period collection, return the
collection as left by the method together with its `Result`.
1. sort ascending; 2. fail if empty or smallest ≤ 1; 3. retain `p ≤ n / 2`. -/
def process_periods (n : ℕ) (periods : List ℕ) : List ℕ × Except Error Unit :=
  let sorted := List.insertionSort (· ≤ ·) periods
  if sorted = [] ∨ sorted.headD 0 ≤ 1 then
    (sorted, Except.error invalid_input_error)
  else
    (sorted.filter (fun p => p ≤ n / 2), Except.ok ())

/-- `MSTL::seasonal_windows`: `(0..periods.len()).map(|i| 7 + 4 * (i + 1))`. -/
def seasonal_windows (periods : List ℕ) : List ℕ :=
  (List.range periods.length).map (fun i => 7 + 4 * (i + 1))

/-- The mutable state of the decomposition loop in `MSTL::fit`:
the deseasonalized series `deseas`, the map of seasonal components, and
the most recent STL fit `res`. -/
structure LoopState where
  deseas : List ℚ
  seasonals : SeasMap
  res : Option StlResult
  deriving Repr, DecidableEq

/-- One iteration of the inner loop of `MSTL::fit` for the pair
`pw = (period, seasonal_window)`: look up the period's current seasonal
estimate (the `unwrap` panics if absent), add it onto `deseas`, run the
STL primitive, store its seasonal component in the map (the fit kept as
`res` has its seasonal component taken out, as by `mem::take`), and
subtract the new seasonal estimate from `deseas`. -/
def mstl_step (stl : Oracle) (st : LoopState) (pw : ℕ × ℕ) : Except Error LoopState :=
  match alist_get st.seasonals pw.1 with
  | none => Except.error Error.panicked
  | some seas =>
    let deseas1 := zip_add st.deseas seas
    match stl pw.2 deseas1 pw.1 with
    | Except.error e => Except.error (Error.stl e)
    | Except.ok r =>
      Except.ok
        { deseas := zip_sub deseas1 r.seasonal
          seasonals := alist_insert st.seasonals pw.1 r.seasonal
          res := some { r with seasonal := [] } }

/-- The inner loop of `MSTL::fit`: one `mstl_step` per
`(period, seasonal_window)` pair, in order; the first failure aborts. -/
def inner_loop (stl : Oracle) : LoopState → List (ℕ × ℕ) → Except Error LoopState
  | st, [] => Except.ok st
  | st, pw :: rest =>
    match mstl_step stl st pw with
    | Except.error e => Except.error e
    | Except.ok st' => inner_loop stl st' rest

/-- The outer loop of `MSTL::fit` (`for i in 0..iterate`): run the inner
loop `iterate` times. -/
def outer_loop (stl : Oracle) (pws : List (ℕ × ℕ)) : ℕ → LoopState → Except Error LoopState
  | 0, st => Except.ok st
  | k + 1, st =>
    match inner_loop stl st pws with
    | Except.error e => Except.error e
    | Except.ok st' => outer_loop stl pws k st'

/-- The initial seasonal map of `MSTL::fit`:
`periods.iter().map(|p| (p, vec![0.0; n])).collect()`. -/
def init_seasonals (periods : List ℕ) (n : ℕ) : SeasMap :=
  periods.foldl (fun m p => alist_insert m p (List.replicate n 0)) []

/-- `MSTLDecomposition`: trend, per-period seasonal components,
residuals and robust weights. -/
structure MSTLDecomposition where
  trend : List ℚ
  seasonal : SeasMap
  residuals : List ℚ
  robust_weights : List ℚ
  deriving Repr, DecidableEq

/-- `MSTLDecomposition::seasonal`: the seasonal component for a given
period, or `none` if the period is not present. -/
def MSTLDecomposition.seasonal_get (d : MSTLDecomposition) (p : ℕ) : Option (List ℚ) :=
  alist_get d.seasonal p

/-- `MSTL::fit`: process the periods, derive the seasonal windows and the
outer iteration count, run the decomposition loop from the initial state
(`deseas = y`, all-zero seasonal components, no fit yet), and package the
result: the most recent fit's trend and weights, the seasonal map, and
`deseas - trend` as residuals.  `NoFitProduced` if the loop never ran. -/
def fit (stl : Oracle) (y : List ℚ) (periods : List ℕ) : Except Error MSTLDecomposition :=
  let pv := process_periods y.length periods
  match pv.2 with
  | Except.error e => Except.error e
  | Except.ok _ =>
    let ps := pv.1
    let windows := seasonal_windows ps
    let iterate := if ps.length = 1 then 1 else 2
    let st0 : LoopState := ⟨y, init_seasonals ps y.length, none⟩
    match outer_loop stl (ps.zip windows) iterate st0 with
    | Except.error e => Except.error e
    | Except.ok st =>
      match st.res with
      | none => Except.error no_fit_error
      | some f =>
        Except.ok
          { trend := f.trend
            seasonal := st.seasonals
            residuals := zip_sub st.deseas f.trend
            robust_weights := f.weights }

/-- A record of one call to the external STL primitive: the seasonal
window, the series passed, the period, and the returned fit. -/
structure CallRec where
  window : ℕ
  input : List ℚ
  period : ℕ
  output : StlResult
  deriving Repr, DecidableEq

/-- `mstl_step`, instrumented to append a record of the oracle call made
to the running trace `tr`. -/
def mstl_step_t (stl : Oracle) (st : LoopState) (tr : List CallRec) (pw : ℕ × ℕ) :
    Except Error (LoopState × List CallRec) :=
  match alist_get st.seasonals pw.1 with
  | none => Except.error Error.panicked
  | some seas =>
    let deseas1 := zip_add st.deseas seas
    match stl pw.2 deseas1 pw.1 with
    | Except.error e => Except.error (Error.stl e)
    | Except.ok r =>
      Except.ok
        ({ deseas := zip_sub deseas1 r.seasonal
           seasonals := alist_insert st.seasonals pw.1 r.seasonal
           res := some { r with seasonal := [] } },
         tr ++ [⟨pw.2, deseas1, pw.1, r⟩])

/-- `inner_loop`, instrumented with the call trace. -/
def inner_loop_t (stl : Oracle) :
    LoopState → List CallRec → List (ℕ × ℕ) → Except Error (LoopState × List CallRec)
  | st, tr, [] => Except.ok (st, tr)
  | st, tr, pw :: rest =>
    match mstl_step_t stl st tr pw with
    | Except.error e => Except.error e
    | Except.ok (st', tr') => inner_loop_t stl st' tr' rest

/-- `outer_loop`, instrumented with the call trace. -/
def outer_loop_t (stl : Oracle) (pws : List (ℕ × ℕ)) :
    ℕ → LoopState → List CallRec → Except Error (LoopState × List CallRec)
  | 0, st, tr => Except.ok (st, tr)
  | k + 1, st, tr =>
    match inner_loop_t stl st tr pws with
    | Except.error e => Except.error e
    | Except.ok (st', tr') => outer_loop_t stl pws k st' tr'

/-- `fit`, instrumented to return the trace of oracle calls alongside the
decomposition. -/
def fit_t (stl : Oracle) (y : List ℚ) (periods : List ℕ) :
    Except Error (MSTLDecomposition × List CallRec) :=
  let pv := process_periods y.length periods
  match pv.2 with
  | Except.error e => Except.error e
  | Except.ok _ =>
    let ps := pv.1
    let windows := seasonal_windows ps
    let iterate := if ps.length = 1 then 1 else 2
    let st0 : LoopState := ⟨y, init_seasonals ps y.length, none⟩
    match outer_loop_t stl (ps.zip windows) iterate st0 [] with
    | Except.error e => Except.error e
    | Except.ok (st, tr) =>
      match st.res with
      | none => Except.error no_fit_error
      | some f =>
        Except.ok
          ({ trend := f.trend
             seasonal := st.seasonals
             residuals := zip_sub st.deseas f.trend
             robust_weights := f.weights },
           tr)

/-- The periods that survive normalization for series length `n`:
sorted ascending, those `≤ n / 2`. -/
def surviving (n : ℕ) (periods : List ℕ) : List ℕ :=
  (List.insertionSort (· ≤ ·) periods).filter (fun p => p ≤ n / 2)

/-- Sum, over the entries of a seasonal map, of the value at index `i`
(0 beyond an entry's length). -/
def entry_sum (m : SeasMap) (i : ℕ) : ℚ :=
  (m.map (fun kv => kv.2.getD i 0)).sum

/-- An oracle every call of which on a length-`n` series succeeds and
returns length-`n` sequences. -/
def OracleOk (stl : Oracle) (n : ℕ) : Prop :=
  ∀ w d p, d.length = n →
    ∃ r, stl w d p = Except.ok r ∧
      r.seasonal.length = n ∧ r.trend.length = n ∧ r.weights.length = n

/-- The seasonal component of the most recent call for period `p` in a
trace, if any. -/
def last_seasonal_for (tr : List CallRec) (p : ℕ) : Option (List ℚ) :=
  ((tr.filter (fun c => c.period == p)).getLast?).map (fun c => c.output.seasonal)

/-- The algebraic loop invariant: `deseas` keeps the length of `y`, the
seasonal map has duplicate-free keys, and elementwise
`deseas + (sum of all seasonal components) = y`. -/
def CoreInv (y : List ℚ) (st : LoopState) : Prop :=
  st.deseas.length = y.length ∧
  (alist_keys st.seasonals).Nodup ∧
  ∀ i, i < y.length → st.deseas.getD i 0 + entry_sum st.seasonals i = y.getD i 0

/-- The length invariant, maintained when the oracle returns length-`n`
sequences: `deseas`, every stored seasonal component, and the trend and
weights of the most recent fit all have length `n`. -/
def LenInv (n : ℕ) (st : LoopState) : Prop :=
  st.deseas.length = n ∧
  (∀ kv ∈ st.seasonals, kv.2.length = n) ∧
  ∀ r, st.res = some r → r.trend.length = n ∧ r.weights.length = n

/-- Every period whose seasonal component was produced by some oracle call
holds, in the map, the seasonal component of the most recent such call. -/
def SeasTrace (st : LoopState) (tr : List CallRec) : Prop :=
  ∀ p v, last_seasonal_for tr p = some v → alist_get st.seasonals p = some v

/-- A trivial external primitive, used as a concrete oracle in examples:
every call succeeds and returns all-zero sequences of the input's length. -/
def stl_const : Oracle := fun _ d _ =>
  Except.ok ⟨List.replicate d.length 0, List.replicate d.length 0, List.replicate d.length 0⟩

/-! ## Elementwise lemmas about the in-place zip updates -/

theorem getD_eq_zero_of_le {l : List ℚ} {i : ℕ} (h : l.length ≤ i) : l.getD i 0 = 0 := by
  rw [List.getD_eq_getElem?_getD, List.getElem?_eq_none h]
  rfl

theorem length_zip_add (d s : List ℚ) : (zip_add d s).length = d.length := by
  simp [zip_add]
  omega

theorem length_zip_sub (d s : List ℚ) : (zip_sub d s).length = d.length := by
  simp [zip_sub]
  omega

theorem getD_zip_add : ∀ (d s : List ℚ) (i : ℕ), i < d.length →
    (zip_add d s).getD i 0 = d.getD i 0 + s.getD i 0
  | [], _, i, hi => absurd hi (by simp)
  | x :: d', [], i, _ => by
    simp [zip_add]
  | x :: d', y :: s', 0, _ => by
    simp [zip_add]
  | x :: d', y :: s', i + 1, hi => by
    have ih := getD_zip_add d' s' i (by simpa using hi)
    simpa [zip_add] using ih

theorem getD_zip_sub : ∀ (d s : List ℚ) (i : ℕ), i < d.length →
    (zip_sub d s).getD i 0 = d.getD i 0 - s.getD i 0
  | [], _, i, hi => absurd hi (by simp)
  | x :: d', [], i, _ => by
    simp [zip_sub]
  | x :: d', y :: s', 0, _ => by
    simp [zip_sub]
  | x :: d', y :: s', i + 1, hi => by
    have ih := getD_zip_sub d' s' i (by simpa using hi)
    simpa [zip_sub] using ih

/-! ## Lemmas about the association-list model of the seasonal map -/

theorem alist_get_cons_self {kv : ℕ × List ℚ} {tl : SeasMap} {k : ℕ} (h : kv.1 = k) :
    alist_get (kv :: tl) k = some kv.2 := by
  unfold alist_get
  rw [List.find?_cons]
  have hbeq : (kv.1 == k) = true := by simpa using h
  rw [hbeq]
  rfl

theorem alist_get_cons_ne {kv : ℕ × List ℚ} {tl : SeasMap} {k : ℕ} (h : ¬ kv.1 = k) :
    alist_get (kv :: tl) k = alist_get tl k := by
  unfold alist_get
  rw [List.find?_cons]
  have hbeq : (kv.1 == k) = false := by simpa using h
  rw [hbeq]

theorem alist_any_iff (m : SeasMap) (k : ℕ) :
    (m.any (fun kv => kv.1 == k)) = true ↔ k ∈ alist_keys m := by
  simp only [alist_keys, List.any_eq_true, List.mem_map, beq_iff_eq]

theorem alist_get_isSome_iff (m : SeasMap) (k : ℕ) :
    (alist_get m k).isSome ↔ k ∈ alist_keys m := by
  induction m with
  | nil => simp [alist_get, alist_keys]
  | cons kv tl ih =>
    by_cases h : kv.1 = k
    · rw [alist_get_cons_self h]
      simp [alist_keys, h]
    · rw [alist_get_cons_ne h, ih]
      simp only [alist_keys, List.map_cons, List.mem_cons]
      constructor
      · exact Or.inr
      · rintro (rfl | hm)
        · exact absurd rfl h
        · exact hm

theorem alist_get_mem (m : SeasMap) (k : ℕ) (v : List ℚ)
    (h : alist_get m k = some v) : (k, v) ∈ m := by
  rcases Option.map_eq_some'.mp h with ⟨kv, hfind, hv⟩
  have h1 := List.find?_some hfind
  have h2 := List.mem_of_find?_eq_some hfind
  have : kv = (k, v) := by
    rcases kv with ⟨a, b⟩
    simp at h1 hv
    simp [h1, hv]
  rwa [this] at h2

theorem mem_alist_insert {m : SeasMap} {k : ℕ} {v : List ℚ} {kv : ℕ × List ℚ}
    (h : kv ∈ alist_insert m k v) : kv = (k, v) ∨ kv ∈ m := by
  unfold alist_insert at h
  split at h
  · rcases List.mem_map.mp h with ⟨kv₀, hmem, heq⟩
    by_cases hk : kv₀.1 = k
    · left
      rw [← heq]
      simp [hk]
    · right
      rw [← heq]
      simpa [hk] using hmem
  · rcases List.mem_append.mp h with hmem | hmem
    · exact Or.inr hmem
    · left
      simpa using hmem

theorem alist_keys_insert_mem {m : SeasMap} {k : ℕ} (v : List ℚ)
    (h : k ∈ alist_keys m) : alist_keys (alist_insert m k v) = alist_keys m := by
  unfold alist_insert
  rw [if_pos ((alist_any_iff m k).mpr h)]
  unfold alist_keys
  rw [List.map_map]
  apply List.map_congr_left
  intro kv _
  by_cases hk : kv.1 = k
  · simp [hk]
  · simp [hk]

theorem alist_keys_insert_not_mem {m : SeasMap} {k : ℕ} (v : List ℚ)
    (h : ¬ k ∈ alist_keys m) : alist_keys (alist_insert m k v) = alist_keys m ++ [k] := by
  unfold alist_insert
  rw [if_neg (fun hc => h ((alist_any_iff m k).mp hc))]
  simp [alist_keys]

theorem alist_keys_insert_nodup {m : SeasMap} {k : ℕ} (v : List ℚ)
    (h : (alist_keys m).Nodup) : (alist_keys (alist_insert m k v)).Nodup := by
  by_cases hk : k ∈ alist_keys m
  · rwa [alist_keys_insert_mem v hk]
  · rw [alist_keys_insert_not_mem v hk]
    simpa [List.nodup_append] using ⟨h, hk⟩

theorem alist_get_map_update_self : ∀ (m : SeasMap) (k : ℕ) (v : List ℚ),
    k ∈ alist_keys m →
    alist_get (m.map (fun kv => if kv.1 = k then (k, v) else kv)) k = some v
  | [], k, v, h => absurd h (by simp [alist_keys])
  | kv :: tl, k, v, h => by
    by_cases hk : kv.1 = k
    · rw [List.map_cons, if_pos hk]
      exact alist_get_cons_self rfl
    · rw [List.map_cons, if_neg hk]
      rw [alist_get_cons_ne hk]
      have hmem : k ∈ alist_keys tl := by
        simp only [alist_keys, List.map_cons, List.mem_cons] at h
        rcases h with rfl | h
        · exact absurd rfl hk
        · exact h
      exact alist_get_map_update_self tl k v hmem

theorem alist_get_append_single_self : ∀ (m : SeasMap) (k : ℕ) (v : List ℚ),
    ¬ k ∈ alist_keys m → alist_get (m ++ [(k, v)]) k = some v
  | [], k, v, _ => by
    rw [List.nil_append]
    exact alist_get_cons_self rfl
  | kv :: tl, k, v, h => by
    have hk : ¬ kv.1 = k := by
      intro hc
      exact h (by simp [alist_keys, hc])
    rw [List.cons_append, alist_get_cons_ne hk]
    exact alist_get_append_single_self tl k v
      (fun hc => h (by simp [alist_keys] at hc ⊢; exact Or.inr hc))

theorem alist_get_insert_self (m : SeasMap) (k : ℕ) (v : List ℚ) :
    alist_get (alist_insert m k v) k = some v := by
  unfold alist_insert
  by_cases h : k ∈ alist_keys m
  · rw [if_pos ((alist_any_iff m k).mpr h)]
    exact alist_get_map_update_self m k v h
  · rw [if_neg (fun hc => h ((alist_any_iff m k).mp hc))]
    exact alist_get_append_single_self m k v h

theorem alist_get_map_update_ne : ∀ (m : SeasMap) (k k' : ℕ) (v : List ℚ), k' ≠ k →
    alist_get (m.map (fun kv => if kv.1 = k then (k, v) else kv)) k' = alist_get m k'
  | [], _, _, _, _ => by simp [alist_get]
  | kv :: tl, k, k', v, h => by
    by_cases hk : kv.1 = k
    · rw [List.map_cons, if_pos hk]
      have hkv' : ¬ ((k, v) : ℕ × List ℚ).1 = k' := by simpa using Ne.symm h
      rw [alist_get_cons_ne hkv',
        alist_get_cons_ne (by rw [hk]; exact fun hc => h hc.symm)]
      exact alist_get_map_update_ne tl k k' v h
    · rw [List.map_cons, if_neg hk]
      by_cases hk' : kv.1 = k'
      · rw [alist_get_cons_self hk', alist_get_cons_self hk']
      · rw [alist_get_cons_ne hk', alist_get_cons_ne hk']
        exact alist_get_map_update_ne tl k k' v h

theorem alist_get_append_single_ne : ∀ (m : SeasMap) (k k' : ℕ) (v : List ℚ), k' ≠ k →
    alist_get (m ++ [(k, v)]) k' = alist_get m k'
  | [], k, k', v, h => by
    rw [List.nil_append, alist_get_cons_ne (by simpa using Ne.symm h)]
  | kv :: tl, k, k', v, h => by
    by_cases hk' : kv.1 = k'
    · rw [List.cons_append, alist_get_cons_self hk', alist_get_cons_self hk']
    · rw [List.cons_append, alist_get_cons_ne hk', alist_get_cons_ne hk']
      exact alist_get_append_single_ne tl k k' v h

theorem alist_get_insert_ne (m : SeasMap) (k k' : ℕ) (v : List ℚ) (h : k' ≠ k) :
    alist_get (alist_insert m k v) k' = alist_get m k' := by
  unfold alist_insert
  split
  · exact alist_get_map_update_ne m k k' v h
  · exact alist_get_append_single_ne m k k' v h

theorem entry_sum_nil (i : ℕ) : entry_sum [] i = 0 := rfl

theorem entry_sum_cons (kv : ℕ × List ℚ) (tl : SeasMap) (i : ℕ) :
    entry_sum (kv :: tl) i = kv.2.getD i 0 + entry_sum tl i := by
  simp [entry_sum]

theorem map_update_eq_self {tl : SeasMap} {k : ℕ} {v : List ℚ}
    (h : ¬ k ∈ alist_keys tl) :
    tl.map (fun kv => if kv.1 = k then (k, v) else kv) = tl := by
  have : ∀ kv ∈ tl, ¬ kv.1 = k := by
    intro kv hmem hc
    exact h (by simpa [alist_keys, ← hc] using List.mem_map_of_mem Prod.fst hmem)
  calc tl.map (fun kv => if kv.1 = k then (k, v) else kv)
      = tl.map id := List.map_congr_left (fun kv hmem => by simp [this kv hmem])
    _ = tl := List.map_id tl

theorem entry_sum_map_update : ∀ (m : SeasMap) (k : ℕ) (seas v : List ℚ) (i : ℕ),
    (alist_keys m).Nodup → alist_get m k = some seas →
    entry_sum (m.map (fun kv => if kv.1 = k then (k, v) else kv)) i
      = entry_sum m i - seas.getD i 0 + v.getD i 0
  | [], k, seas, v, i, _, hget => by simp [alist_get] at hget
  | kv :: tl, k, seas, v, i, hnd, hget => by
    have hnd' : (alist_keys tl).Nodup ∧ ¬ kv.1 ∈ alist_keys tl := by
      simpa [alist_keys, List.nodup_cons, and_comm] using hnd
    by_cases hk : kv.1 = k
    · have hseas : seas = kv.2 := by
        rw [alist_get_cons_self hk] at hget
        exact (Option.some_inj.mp hget).symm
      rw [List.map_cons, if_pos hk, map_update_eq_self (hk ▸ hnd'.2)]
      rw [entry_sum_cons, entry_sum_cons, hseas]
      ring
    · have hget' : alist_get tl k = some seas := by
        rwa [alist_get_cons_ne hk] at hget
      rw [List.map_cons, if_neg hk, entry_sum_cons, entry_sum_cons,
        entry_sum_map_update tl k seas v i hnd'.1 hget']
      ring

theorem entry_sum_insert {m : SeasMap} {k : ℕ} {seas : List ℚ} (v : List ℚ) (i : ℕ)
    (hnd : (alist_keys m).Nodup) (hget : alist_get m k = some seas) :
    entry_sum (alist_insert m k v) i = entry_sum m i - seas.getD i 0 + v.getD i 0 := by
  have hmem : k ∈ alist_keys m := by
    rw [← alist_get_isSome_iff, hget]
    rfl
  unfold alist_insert
  rw [if_pos ((alist_any_iff m k).mpr hmem)]
  exact entry_sum_map_update m k seas v i hnd hget

/-! ## The initial seasonal map -/

theorem getD_replicate_zero (n i : ℕ) : (List.replicate n (0 : ℚ)).getD i 0 = 0 := by
  rw [List.getD_eq_getElem?_getD, List.getElem?_replicate]
  split <;> rfl

theorem alist_get_foldl_init : ∀ (ps : List ℕ) (acc : SeasMap) (n p : ℕ),
    alist_get (ps.foldl (fun m q => alist_insert m q (List.replicate n 0)) acc) p
      = if p ∈ ps then some (List.replicate n 0) else alist_get acc p
  | [], acc, n, p => by simp
  | q :: ps, acc, n, p => by
    rw [List.foldl_cons, alist_get_foldl_init ps _ n p]
    by_cases hp : p ∈ ps
    · simp [hp]
    · by_cases hpq : p = q
      · subst hpq
        simp [hp, alist_get_insert_self]
      · simp [hp, hpq, alist_get_insert_ne _ _ _ _ hpq]

theorem alist_get_init (ps : List ℕ) (n p : ℕ) :
    alist_get (init_seasonals ps n) p
      = if p ∈ ps then some (List.replicate n 0) else none := by
  unfold init_seasonals
  rw [alist_get_foldl_init]
  simp [alist_get]

theorem mem_keys_init (ps : List ℕ) (n p : ℕ) :
    p ∈ alist_keys (init_seasonals ps n) ↔ p ∈ ps := by
  rw [← alist_get_isSome_iff, alist_get_init]
  split <;> simp_all

theorem nodup_keys_foldl_init : ∀ (ps : List ℕ) (acc : SeasMap) (n : ℕ),
    (alist_keys acc).Nodup →
    (alist_keys (ps.foldl (fun m q => alist_insert m q (List.replicate n 0)) acc)).Nodup
  | [], acc, n, h => by simpa using h
  | q :: ps, acc, n, h => by
    rw [List.foldl_cons]
    exact nodup_keys_foldl_init ps _ n (alist_keys_insert_nodup _ h)

theorem nodup_keys_init (ps : List ℕ) (n : ℕ) : (alist_keys (init_seasonals ps n)).Nodup :=
  nodup_keys_foldl_init ps [] n (by simp [alist_keys])

theorem entries_foldl_init : ∀ (ps : List ℕ) (acc : SeasMap) (n : ℕ),
    (∀ kv ∈ acc, kv.2 = List.replicate n 0) →
    ∀ kv ∈ ps.foldl (fun m q => alist_insert m q (List.replicate n 0)) acc,
      kv.2 = List.replicate n 0
  | [], acc, n, h => by simpa using h
  | q :: ps, acc, n, h => by
    rw [List.foldl_cons]
    refine entries_foldl_init ps _ n ?_
    intro kv hkv
    rcases mem_alist_insert hkv with rfl | hkv
    · rfl
    · exact h kv hkv

theorem entries_init (ps : List ℕ) (n : ℕ) :
    ∀ kv ∈ init_seasonals ps n, kv.2 = List.replicate n 0 :=
  entries_foldl_init ps [] n (by simp)

theorem entry_sum_init (ps : List ℕ) (n i : ℕ) : entry_sum (init_seasonals ps n) i = 0 := by
  unfold entry_sum
  apply List.sum_eq_zero
  intro x hx
  rcases List.mem_map.mp hx with ⟨kv, hkv, rfl⟩
  rw [entries_init ps n kv hkv, getD_replicate_zero]

/-! ## Invariants of the decomposition loop -/

theorem mstl_step_ok_elim {stl : Oracle} {st : LoopState} {pw : ℕ × ℕ} {st' : LoopState}
    (h : mstl_step stl st pw = Except.ok st') :
    ∃ seas r, alist_get st.seasonals pw.1 = some seas ∧
      stl pw.2 (zip_add st.deseas seas) pw.1 = Except.ok r ∧
      st' = ⟨zip_sub (zip_add st.deseas seas) r.seasonal,
             alist_insert st.seasonals pw.1 r.seasonal,
             some { r with seasonal := [] }⟩ := by
  unfold mstl_step at h
  split at h
  · simp at h
  · rename_i seas hget
    simp only [] at h
    split at h
    · simp at h
    · rename_i r hstl
      simp only [Except.ok.injEq] at h
      exact ⟨seas, r, hget, hstl, h.symm⟩

theorem mstl_step_ok_intro {stl : Oracle} {st : LoopState} {pw : ℕ × ℕ}
    {seas : List ℚ} {r : StlResult}
    (hget : alist_get st.seasonals pw.1 = some seas)
    (hstl : stl pw.2 (zip_add st.deseas seas) pw.1 = Except.ok r) :
    mstl_step stl st pw = Except.ok
      ⟨zip_sub (zip_add st.deseas seas) r.seasonal,
       alist_insert st.seasonals pw.1 r.seasonal,
       some { r with seasonal := [] }⟩ := by
  unfold mstl_step
  rw [hget]
  simp only []
  rw [hstl]

theorem mstl_step_err_shape {stl : Oracle} {st : LoopState} {pw : ℕ × ℕ} {e : Error}
    (h : mstl_step stl st pw = Except.error e) :
    e = Error.panicked ∨ ∃ s, e = Error.stl s := by
  unfold mstl_step at h
  split at h
  · simp only [Except.error.injEq] at h
    exact Or.inl h.symm
  · simp only [] at h
    split at h
    · simp only [Except.error.injEq] at h
      exact Or.inr ⟨_, h.symm⟩
    · simp at h

theorem mstl_step_keys {stl : Oracle} {st : LoopState} {pw : ℕ × ℕ} {st' : LoopState}
    (h : mstl_step stl st pw = Except.ok st') :
    alist_keys st'.seasonals = alist_keys st.seasonals := by
  rcases mstl_step_ok_elim h with ⟨seas, r, hget, hstl, rfl⟩
  exact alist_keys_insert_mem _ (by rw [← alist_get_isSome_iff, hget]; rfl)

theorem mstl_step_core {y : List ℚ} {stl : Oracle} {st : LoopState} {pw : ℕ × ℕ}
    {st' : LoopState} (h : mstl_step stl st pw = Except.ok st')
    (hinv : CoreInv y st) : CoreInv y st' := by
  rcases mstl_step_ok_elim h with ⟨seas, r, hget, hstl, rfl⟩
  obtain ⟨hlen, hnd, hsum⟩ := hinv
  have hmem : pw.1 ∈ alist_keys st.seasonals := by
    rw [← alist_get_isSome_iff, hget]
    rfl
  refine ⟨?_, ?_, ?_⟩
  · simp [length_zip_sub, length_zip_add, hlen]
  · simpa [alist_keys_insert_mem _ hmem] using hnd
  · intro i hi
    have hi1 : i < st.deseas.length := by rw [hlen]; exact hi
    have hi2 : i < (zip_add st.deseas seas).length := by rw [length_zip_add]; exact hi1
    simp only []
    rw [getD_zip_sub _ _ i hi2, getD_zip_add _ _ i hi1,
      entry_sum_insert _ i hnd hget]
    linear_combination hsum i hi

theorem inner_loop_core {y : List ℚ} {stl : Oracle} :
    ∀ (pws : List (ℕ × ℕ)) (st st' : LoopState),
    inner_loop stl st pws = Except.ok st' → CoreInv y st → CoreInv y st'
  | [], st, st', h, hinv => by
    unfold inner_loop at h
    simp only [Except.ok.injEq] at h
    rwa [← h]
  | pw :: rest, st, st', h, hinv => by
    unfold inner_loop at h
    split at h
    · simp at h
    · rename_i st₁ hstep
      exact inner_loop_core rest st₁ st' h (mstl_step_core hstep hinv)

theorem inner_loop_keys {stl : Oracle} :
    ∀ (pws : List (ℕ × ℕ)) (st st' : LoopState),
    inner_loop stl st pws = Except.ok st' →
    alist_keys st'.seasonals = alist_keys st.seasonals
  | [], st, st', h => by
    unfold inner_loop at h
    simp only [Except.ok.injEq] at h
    rw [← h]
  | pw :: rest, st, st', h => by
    unfold inner_loop at h
    split at h
    · simp at h
    · rename_i st₁ hstep
      rw [inner_loop_keys rest st₁ st' h, mstl_step_keys hstep]

theorem inner_loop_res_some {stl : Oracle} :
    ∀ (pws : List (ℕ × ℕ)) (st st' : LoopState),
    inner_loop stl st pws = Except.ok st' →
    (pws ≠ [] ∨ ∃ r, st.res = some r) → ∃ r, st'.res = some r
  | [], st, st', h, hcond => by
    unfold inner_loop at h
    simp only [Except.ok.injEq] at h
    rcases hcond with hc | hc
    · exact absurd rfl hc
    · rwa [← h]
  | pw :: rest, st, st', h, _ => by
    unfold inner_loop at h
    split at h
    · simp at h
    · rename_i st₁ hstep
      rcases mstl_step_ok_elim hstep with ⟨seas, r, _, _, rfl⟩
      exact inner_loop_res_some rest _ st' h (Or.inr ⟨_, rfl⟩)

theorem inner_loop_err_shape {stl : Oracle} :
    ∀ (pws : List (ℕ × ℕ)) (st : LoopState) (e : Error),
    inner_loop stl st pws = Except.error e →
    e = Error.panicked ∨ ∃ s, e = Error.stl s
  | [], st, e, h => by
    unfold inner_loop at h
    simp at h
  | pw :: rest, st, e, h => by
    unfold inner_loop at h
    split at h
    · rename_i e₁ hstep
      simp only [Except.error.injEq] at h
      exact h ▸ mstl_step_err_shape hstep
    · rename_i st₁ hstep
      exact inner_loop_err_shape rest st₁ e h

theorem outer_loop_core {y : List ℚ} {stl : Oracle} {pws : List (ℕ × ℕ)} :
    ∀ (k : ℕ) (st st' : LoopState),
    outer_loop stl pws k st = Except.ok st' → CoreInv y st → CoreInv y st'
  | 0, st, st', h, hinv => by
    unfold outer_loop at h
    simp only [Except.ok.injEq] at h
    rwa [← h]
  | k + 1, st, st', h, hinv => by
    unfold outer_loop at h
    split at h
    · simp at h
    · rename_i st₁ hloop
      exact outer_loop_core k st₁ st' h (inner_loop_core pws st st₁ hloop hinv)

theorem outer_loop_keys {stl : Oracle} {pws : List (ℕ × ℕ)} :
    ∀ (k : ℕ) (st st' : LoopState),
    outer_loop stl pws k st = Except.ok st' →
    alist_keys st'.seasonals = alist_keys st.seasonals
  | 0, st, st', h => by
    unfold outer_loop at h
    simp only [Except.ok.injEq] at h
    rw [← h]
  | k + 1, st, st', h => by
    unfold outer_loop at h
    split at h
    · simp at h
    · rename_i st₁ hloop
      rw [outer_loop_keys k st₁ st' h, inner_loop_keys pws st st₁ hloop]

theorem outer_loop_err_shape {stl : Oracle} {pws : List (ℕ × ℕ)} :
    ∀ (k : ℕ) (st : LoopState) (e : Error),
    outer_loop stl pws k st = Except.error e →
    e = Error.panicked ∨ ∃ s, e = Error.stl s
  | 0, st, e, h => by
    unfold outer_loop at h
    simp at h
  | k + 1, st, e, h => by
    unfold outer_loop at h
    split at h
    · rename_i e₁ hloop
      simp only [Except.error.injEq] at h
      exact h ▸ inner_loop_err_shape pws st e₁ hloop
    · rename_i st₁ hloop
      exact outer_loop_err_shape k st₁ e h

/-! ## Correspondence between the plain and the instrumented loops -/

theorem mstl_step_t_err {stl : Oracle} {st : LoopState} {pw : ℕ × ℕ} {e : Error}
    (tr : List CallRec) (h : mstl_step stl st pw = Except.error e) :
    mstl_step_t stl st tr pw = Except.error e := by
  unfold mstl_step at h
  unfold mstl_step_t
  split at h
  · simp only [Except.error.injEq] at h
    rw [h]
  · simp only [] at h ⊢
    split at h
    · simp only [Except.error.injEq] at h
      rw [h]
    · simp at h

theorem mstl_step_t_ok {stl : Oracle} {st : LoopState} {pw : ℕ × ℕ} {st' : LoopState}
    (tr : List CallRec) (h : mstl_step stl st pw = Except.ok st') :
    ∃ c : CallRec, mstl_step_t stl st tr pw = Except.ok (st', tr ++ [c]) ∧
      c.period = pw.1 ∧ c.window = pw.2 ∧
      st'.seasonals = alist_insert st.seasonals pw.1 c.output.seasonal ∧
      st'.res = some ⟨[], c.output.trend, c.output.weights⟩ := by
  rcases mstl_step_ok_elim h with ⟨seas, r, hget, hstl, rfl⟩
  refine ⟨⟨pw.2, zip_add st.deseas seas, pw.1, r⟩, ?_, rfl, rfl, rfl, rfl⟩
  unfold mstl_step_t
  rw [hget]
  simp only []
  rw [hstl]

theorem inner_loop_t_err {stl : Oracle} :
    ∀ (pws : List (ℕ × ℕ)) (st : LoopState) (tr : List CallRec) (e : Error),
    inner_loop stl st pws = Except.error e → inner_loop_t stl st tr pws = Except.error e
  | [], st, tr, e, h => by
    unfold inner_loop at h
    simp at h
  | pw :: rest, st, tr, e, h => by
    unfold inner_loop at h
    unfold inner_loop_t
    split at h
    · rename_i e₁ hstep
      rw [mstl_step_t_err tr hstep]
      simpa using h
    · rename_i st₁ hstep
      rcases mstl_step_t_ok tr hstep with ⟨c, hstep_t, -, -, -, -⟩
      rw [hstep_t]
      exact inner_loop_t_err rest st₁ (tr ++ [c]) e h

theorem inner_loop_t_ok {stl : Oracle} :
    ∀ (pws : List (ℕ × ℕ)) (st st' : LoopState) (tr : List CallRec),
    inner_loop stl st pws = Except.ok st' →
    ∃ cs : List CallRec, inner_loop_t stl st tr pws = Except.ok (st', tr ++ cs) ∧
      cs.map (fun c => c.period) = pws.map Prod.fst ∧
      (pws ≠ [] → ∃ c, cs.getLast? = some c ∧
        st'.res = some ⟨[], c.output.trend, c.output.weights⟩)
  | [], st, st', tr, h => by
    unfold inner_loop at h
    simp only [Except.ok.injEq] at h
    exact ⟨[], by simp [inner_loop_t, h], by simp, by simp⟩
  | pw :: rest, st, st', tr, h => by
    unfold inner_loop at h
    split at h
    · simp at h
    · rename_i st₁ hstep
      rcases mstl_step_t_ok tr hstep with ⟨c, hstep_t, hcper, -, -, hcres⟩
      rcases inner_loop_t_ok rest st₁ st' (tr ++ [c]) h with ⟨cs, hloop_t, hmap, hlast⟩
      refine ⟨c :: cs, ?_, ?_, ?_⟩
      · unfold inner_loop_t
        rw [hstep_t]
        simpa [List.append_assoc] using hloop_t
      · simp [hmap, hcper]
      · intro _
        by_cases hrest : rest = []
        · subst hrest
          have hcs : cs = [] := by
            have := hmap
            simp at this
            exact this
          subst hcs
          refine ⟨c, by simp, ?_⟩
          unfold inner_loop at h
          simp only [Except.ok.injEq] at h
          rw [← h]
          exact hcres
        · have hcs : cs ≠ [] := by
            intro hc
            subst hc
            have hr : rest = [] := by
              have h2 := hmap.symm
              simpa using h2
            exact hrest hr
          rcases hlast hrest with ⟨c₁, hc₁, hres₁⟩
          refine ⟨c₁, ?_, hres₁⟩
          rw [show c :: cs = [c] ++ cs by simp, List.getLast?_append_of_ne_nil [c] hcs]
          exact hc₁

theorem outer_loop_t_err {stl : Oracle} {pws : List (ℕ × ℕ)} :
    ∀ (k : ℕ) (st : LoopState) (tr : List CallRec) (e : Error),
    outer_loop stl pws k st = Except.error e → outer_loop_t stl pws k st tr = Except.error e
  | 0, st, tr, e, h => by
    unfold outer_loop at h
    simp at h
  | k + 1, st, tr, e, h => by
    unfold outer_loop at h
    unfold outer_loop_t
    split at h
    · rename_i e₁ hloop
      rw [inner_loop_t_err pws st tr e₁ hloop]
      simpa using h
    · rename_i st₁ hloop
      rcases inner_loop_t_ok pws st st₁ tr hloop with ⟨cs, hloop_t, -, -⟩
      rw [hloop_t]
      exact outer_loop_t_err k st₁ (tr ++ cs) e h

theorem outer_loop_t_ok {stl : Oracle} {pws : List (ℕ × ℕ)} :
    ∀ (k : ℕ) (st st' : LoopState) (tr : List CallRec),
    outer_loop stl pws k st = Except.ok st' →
    ∃ cs : List CallRec, outer_loop_t stl pws k st tr = Except.ok (st', tr ++ cs) ∧
      cs.length = k * pws.length ∧
      (1 ≤ k → ∀ p ∈ pws.map Prod.fst, p ∈ cs.map (fun c => c.period)) ∧
      (1 ≤ k → pws ≠ [] → ∃ c, cs.getLast? = some c ∧
        (pws.map Prod.fst).getLast? = some c.period ∧
        st'.res = some ⟨[], c.output.trend, c.output.weights⟩)
  | 0, st, st', tr, h => by
    unfold outer_loop at h
    simp only [Except.ok.injEq] at h
    exact ⟨[], by simp [outer_loop_t, h], by simp, by simp, by simp⟩
  | k + 1, st, st', tr, h => by
    unfold outer_loop at h
    split at h
    · simp at h
    · rename_i st₁ hloop
      rcases inner_loop_t_ok pws st st₁ tr hloop with ⟨cs₁, hloop_t, hmap₁, hlast₁⟩
      rcases outer_loop_t_ok k st₁ st' (tr ++ cs₁) h with ⟨cs₂, houter_t, hlen₂, hmem₂, hlast₂⟩
      have hlen₁ : cs₁.length = pws.length := by
        have := congrArg List.length hmap₁
        simpa using this
      refine ⟨cs₁ ++ cs₂, ?_, ?_, ?_, ?_⟩
      · unfold outer_loop_t
        rw [hloop_t]
        simpa [List.append_assoc] using houter_t
      · simp [hlen₁, hlen₂]
        ring
      · intro _ p hp
        rw [← hmap₁] at hp
        simp only [List.map_append, List.mem_append]
        exact Or.inl hp
      · intro _ hpws
        rcases Nat.eq_zero_or_pos k with hk | hk
        · subst hk
          have hcs₂ : cs₂ = [] := List.length_eq_zero.mp (by simpa using hlen₂)
          subst hcs₂
          rcases hlast₁ hpws with ⟨c, hc, hres⟩
          refine ⟨c, by simpa using hc, ?_, ?_⟩
          · rw [← hmap₁, List.getLast?_map, hc]
            rfl
          · unfold outer_loop at h
            simp only [Except.ok.injEq] at h
            rw [← h]
            exact hres
        · have hcs₂ : cs₂ ≠ [] := by
            intro hc
            subst hc
            simp at hlen₂
            rcases hlen₂ with hlen₂ | hlen₂
            · omega
            · exact hpws hlen₂
          rcases hlast₂ hk hpws with ⟨c, hc, hcper, hres⟩
          exact ⟨c, by rw [List.getLast?_append_of_ne_nil cs₁ hcs₂]; exact hc, hcper, hres⟩

/-! ## The seasonal map tracks the most recent fit per period -/

theorem mstl_step_t_elim {stl : Oracle} {st : LoopState} {tr : List CallRec}
    {pw : ℕ × ℕ} {out : LoopState × List CallRec}
    (h : mstl_step_t stl st tr pw = Except.ok out) :
    ∃ seas r, alist_get st.seasonals pw.1 = some seas ∧
      stl pw.2 (zip_add st.deseas seas) pw.1 = Except.ok r ∧
      out = (⟨zip_sub (zip_add st.deseas seas) r.seasonal,
              alist_insert st.seasonals pw.1 r.seasonal,
              some { r with seasonal := [] }⟩,
             tr ++ [⟨pw.2, zip_add st.deseas seas, pw.1, r⟩]) := by
  unfold mstl_step_t at h
  split at h
  · simp at h
  · rename_i seas hget
    simp only [] at h
    split at h
    · simp at h
    · rename_i r hstl
      simp only [Except.ok.injEq] at h
      exact ⟨seas, r, hget, hstl, h.symm⟩

theorem seastrace_step {stl : Oracle} {st : LoopState} {tr : List CallRec}
    {pw : ℕ × ℕ} {out : LoopState × List CallRec}
    (h : mstl_step_t stl st tr pw = Except.ok out)
    (hinv : SeasTrace st tr) : SeasTrace out.1 out.2 := by
  rcases mstl_step_t_elim h with ⟨seas, r, hget, hstl, rfl⟩
  intro p v hlast
  unfold last_seasonal_for at hlast
  rw [List.filter_append] at hlast
  by_cases hp : p = pw.1
  · rw [show List.filter (fun c => c.period == p)
        [(⟨pw.2, zip_add st.deseas seas, pw.1, r⟩ : CallRec)] =
        [⟨pw.2, zip_add st.deseas seas, pw.1, r⟩] by simp [hp],
      List.getLast?_concat] at hlast
    simp only [Option.map_some', Option.some.injEq] at hlast
    simp only []
    rw [hp, alist_get_insert_self]
    rw [← hlast]
  · rw [show List.filter (fun c => c.period == p)
        [(⟨pw.2, zip_add st.deseas seas, pw.1, r⟩ : CallRec)] = [] by
        simp [Ne.symm hp], List.append_nil] at hlast
    simp only []
    rw [alist_get_insert_ne _ _ _ _ hp]
    exact hinv p v hlast

theorem inner_loop_t_seastrace {stl : Oracle} :
    ∀ (pws : List (ℕ × ℕ)) (st : LoopState) (tr : List CallRec)
      (out : LoopState × List CallRec),
    inner_loop_t stl st tr pws = Except.ok out → SeasTrace st tr → SeasTrace out.1 out.2
  | [], st, tr, out, h, hinv => by
    unfold inner_loop_t at h
    simp only [Except.ok.injEq] at h
    rw [← h]
    exact hinv
  | pw :: rest, st, tr, out, h, hinv => by
    unfold inner_loop_t at h
    split at h
    · simp at h
    · rename_i st₁ tr₁ hstep
      exact inner_loop_t_seastrace rest st₁ tr₁ out h (seastrace_step hstep hinv)

theorem outer_loop_t_seastrace {stl : Oracle} {pws : List (ℕ × ℕ)} :
    ∀ (k : ℕ) (st : LoopState) (tr : List CallRec) (out : LoopState × List CallRec),
    outer_loop_t stl pws k st tr = Except.ok out → SeasTrace st tr → SeasTrace out.1 out.2
  | 0, st, tr, out, h, hinv => by
    unfold outer_loop_t at h
    simp only [Except.ok.injEq] at h
    rw [← h]
    exact hinv
  | k + 1, st, tr, out, h, hinv => by
    unfold outer_loop_t at h
    split at h
    · simp at h
    · rename_i st₁ tr₁ hloop
      exact outer_loop_t_seastrace k st₁ tr₁ out h
        (inner_loop_t_seastrace pws st tr (st₁, tr₁) hloop hinv)

theorem seastrace_init (st : LoopState) : SeasTrace st [] := by
  intro p v hlast
  simp [last_seasonal_for] at hlast

/-! ## Characterizing period normalization -/

theorem sorted_head_le {ps : List ℕ} {h : ℕ} {t : List ℕ}
    (hs : List.insertionSort (· ≤ ·) ps = h :: t) : ∀ p ∈ ps, h ≤ p := by
  intro p hp
  have hperm := List.perm_insertionSort (· ≤ ·) ps
  have hp' : p ∈ h :: t := hs ▸ hperm.symm.subset hp
  have hsorted : List.Sorted (· ≤ ·) (h :: t) := hs ▸ List.sorted_insertionSort (· ≤ ·) ps
  rcases List.mem_cons.mp hp' with rfl | hpt
  · exact le_refl p
  · exact (List.sorted_cons.mp hsorted).1 p hpt

theorem sorted_head_mem {ps : List ℕ} {h : ℕ} {t : List ℕ}
    (hs : List.insertionSort (· ≤ ·) ps = h :: t) : h ∈ ps := by
  have hperm := List.perm_insertionSort (· ≤ ·) ps
  exact hperm.subset (hs ▸ List.mem_cons_self h t)

/-- The validation condition of `process_periods`, in terms of the raw
period collection: empty, or some period ≤ 1 (equivalently, minimum ≤ 1). -/
theorem invalid_cond_iff (ps : List ℕ) :
    (List.insertionSort (· ≤ ·) ps = [] ∨ (List.insertionSort (· ≤ ·) ps).headD 0 ≤ 1)
      ↔ (ps = [] ∨ ∃ p ∈ ps, p ≤ 1) := by
  rcases hs : List.insertionSort (· ≤ ·) ps with _ | ⟨h, t⟩
  · have hnil : ps = [] := by
      have hperm : ps.Perm ([] : List ℕ) := hs ▸ (List.perm_insertionSort (· ≤ ·) ps).symm
      exact hperm.eq_nil
    simp [hnil]
  · have hps : ps ≠ [] := by
      intro hc
      subst hc
      simp [List.insertionSort] at hs
    simp only [List.headD_cons, List.cons_ne_nil, false_or]
    constructor
    · intro hle
      exact Or.inr ⟨h, sorted_head_mem hs, hle⟩
    · rintro (hc | ⟨p, hp, hple⟩)
      · exact absurd hc hps
      · exact le_trans (sorted_head_le hs p hp) hple

theorem process_periods_eq_invalid {n : ℕ} {ps : List ℕ}
    (h : ps = [] ∨ ∃ p ∈ ps, p ≤ 1) :
    process_periods n ps
      = (List.insertionSort (· ≤ ·) ps, Except.error invalid_input_error) := by
  unfold process_periods
  rw [if_pos ((invalid_cond_iff ps).mpr h)]

theorem process_periods_eq_valid {n : ℕ} {ps : List ℕ}
    (h : ¬ (ps = [] ∨ ∃ p ∈ ps, p ≤ 1)) :
    process_periods n ps = (surviving n ps, Except.ok ()) := by
  unfold process_periods surviving
  rw [if_neg (fun hc => h ((invalid_cond_iff ps).mp hc))]

/-! ## Dissecting a successful `fit` -/

theorem fit_ok_elim {stl : Oracle} {y : List ℚ} {ps : List ℕ} {D : MSTLDecomposition}
    (hfit : fit stl y ps = Except.ok D) :
    ¬ (ps = [] ∨ ∃ p ∈ ps, p ≤ 1) ∧
    ∃ st f,
      outer_loop stl
        ((surviving y.length ps).zip (seasonal_windows (surviving y.length ps)))
        (if (surviving y.length ps).length = 1 then 1 else 2)
        ⟨y, init_seasonals (surviving y.length ps) y.length, none⟩ = Except.ok st ∧
      st.res = some f ∧
      D = ⟨f.trend, st.seasonals, zip_sub st.deseas f.trend, f.weights⟩ := by
  by_cases hc : ps = [] ∨ ∃ p ∈ ps, p ≤ 1
  · unfold fit at hfit
    rw [process_periods_eq_invalid hc] at hfit
    simp at hfit
  · unfold fit at hfit
    rw [process_periods_eq_valid hc] at hfit
    simp only [] at hfit
    refine ⟨hc, ?_⟩
    split at hfit
    · simp at hfit
    · rename_i st houter
      split at hfit
      · simp at hfit
      · rename_i f hres
        simp only [Except.ok.injEq] at hfit
        exact ⟨st, f, houter, hres, hfit.symm⟩

theorem outer_loop_nil {stl : Oracle} : ∀ (k : ℕ) (st st' : LoopState),
    outer_loop stl [] k st = Except.ok st' → st' = st
  | 0, st, st', h => by
    unfold outer_loop at h
    simp only [Except.ok.injEq] at h
    exact h.symm
  | k + 1, st, st', h => by
    unfold outer_loop at h
    simp only [inner_loop] at h
    exact outer_loop_nil k st st' h

theorem fit_t_of_fit_ok {stl : Oracle} {y : List ℚ} {ps : List ℕ} {D : MSTLDecomposition}
    (hfit : fit stl y ps = Except.ok D) :
    ∃ tr : List CallRec,
      fit_t stl y ps = Except.ok (D, tr) ∧
      tr.length = (surviving y.length ps).length *
        (if (surviving y.length ps).length = 1 then 1 else 2) ∧
      (∀ p ∈ surviving y.length ps, ∃ v, alist_get D.seasonal p = some v ∧
        last_seasonal_for tr p = some v) ∧
      (∃ c, tr.getLast? = some c ∧ (surviving y.length ps).getLast? = some c.period ∧
        D.trend = c.output.trend ∧ D.robust_weights = c.output.weights) := by
  rcases fit_ok_elim hfit with ⟨hc, st, f, houter, hres, hD⟩
  set sv := surviving y.length ps with hsv
  set pws := sv.zip (seasonal_windows sv) with hpws
  set k := if sv.length = 1 then 1 else 2 with hk
  set st0 : LoopState := ⟨y, init_seasonals sv y.length, none⟩ with hst0
  rcases outer_loop_t_ok k st0 st [] houter with ⟨cs, houter_t, hlen, hmem, hlast⟩
  rw [List.nil_append] at houter_t
  have hwlen : (seasonal_windows sv).length = sv.length := by
    simp [seasonal_windows]
  have hfst : pws.map Prod.fst = sv := by
    rw [hpws]
    exact List.map_fst_zip sv (seasonal_windows sv) (le_of_eq hwlen.symm)
  have hpwslen : pws.length = sv.length := by
    rw [hpws, List.length_zip, hwlen, min_self]
  have hkpos : 1 ≤ k := by
    rw [hk]
    split <;> omega
  have hsv_ne : sv ≠ [] := by
    intro hnil
    have hpws_nil : pws = [] := by
      rw [hpws, hnil]
      rfl
    rw [hpws_nil] at houter
    have hst := outer_loop_nil k st0 st houter
    rw [hst, hst0] at hres
    simp at hres
  have hpws_ne : pws ≠ [] := by
    intro hnil
    rw [hnil] at hpwslen
    exact hsv_ne (List.length_eq_zero.mp hpwslen.symm)
  have htrace : SeasTrace st cs :=
    outer_loop_t_seastrace k st0 [] (st, cs) houter_t (seastrace_init st0)
  refine ⟨cs, ?_, ?_, ?_, ?_⟩
  · unfold fit_t
    rw [process_periods_eq_valid hc]
    simp only []
    rw [← hsv, ← hst0, ← hpws, ← hk, houter_t]
    simp only []
    rw [hres]
    simp only []
    rw [hD]
  · rw [hlen, hpwslen]
    ring
  · intro p hp
    have hp' : p ∈ cs.map (fun c => c.period) := hmem hkpos p (by rw [hfst]; exact hp)
    rcases List.mem_map.mp hp' with ⟨c₁, hc₁, hcp⟩
    have hfil : c₁ ∈ cs.filter (fun c => c.period == p) :=
      List.mem_filter.mpr ⟨hc₁, by simp [hcp]⟩
    have hfil_ne : cs.filter (fun c => c.period == p) ≠ [] := List.ne_nil_of_mem hfil
    have hlast_some : ∃ c₂, (cs.filter (fun c => c.period == p)).getLast? = some c₂ :=
      ⟨_, List.getLast?_eq_getLast _ hfil_ne⟩
    rcases hlast_some with ⟨c₂, hc₂⟩
    refine ⟨c₂.output.seasonal, ?_, ?_⟩
    · have := htrace p c₂.output.seasonal (by unfold last_seasonal_for; rw [hc₂]; rfl)
      rw [hD]
      exact this
    · unfold last_seasonal_for
      rw [hc₂]
      rfl
  · rcases hlast hkpos hpws_ne with ⟨c, hcl, hcper, hcres⟩
    rw [hres] at hcres
    have hf : f = ⟨[], c.output.trend, c.output.weights⟩ := by
      simpa using hcres
    refine ⟨c, hcl, ?_, ?_, ?_⟩
    · rw [← hfst]
      exact hcper
    · rw [hD, hf]
    · rw [hD, hf]

/-! ## Totality of the loop under a well-behaved oracle -/

theorem mstl_step_total {stl : Oracle} {n : ℕ} {st : LoopState} (pw : ℕ × ℕ)
    (hstl : OracleOk stl n) (hlen : LenInv n st)
    (hmem : pw.1 ∈ alist_keys st.seasonals) :
    ∃ st', mstl_step stl st pw = Except.ok st' ∧ LenInv n st' := by
  have hsome : (alist_get st.seasonals pw.1).isSome = true :=
    (alist_get_isSome_iff _ _).mpr hmem
  rcases hget : alist_get st.seasonals pw.1 with _ | seas
  · rw [hget] at hsome
    simp at hsome
  · have hd1 : (zip_add st.deseas seas).length = n := by
      rw [length_zip_add]
      exact hlen.1
    rcases hstl pw.2 (zip_add st.deseas seas) pw.1 hd1 with ⟨r, hr, hrs, hrt, hrw⟩
    refine ⟨_, mstl_step_ok_intro hget hr, ?_, ?_, ?_⟩
    · rw [length_zip_sub]
      exact hd1
    · intro kv hkv
      rcases mem_alist_insert hkv with rfl | hkv
      · exact hrs
      · exact hlen.2.1 kv hkv
    · intro r' hr'
      simp only [Option.some.injEq] at hr'
      rw [← hr']
      exact ⟨hrt, hrw⟩

theorem inner_loop_total {stl : Oracle} {n : ℕ} (hstl : OracleOk stl n) :
    ∀ (pws : List (ℕ × ℕ)) (st : LoopState), LenInv n st →
    (∀ pw ∈ pws, pw.1 ∈ alist_keys st.seasonals) →
    ∃ st', inner_loop stl st pws = Except.ok st' ∧ LenInv n st'
  | [], st, hlen, _ => ⟨st, rfl, hlen⟩
  | pw :: rest, st, hlen, hmem => by
    rcases mstl_step_total pw hstl hlen (hmem pw (by simp)) with ⟨st₁, hstep, hlen₁⟩
    have hkeys₁ : alist_keys st₁.seasonals = alist_keys st.seasonals := mstl_step_keys hstep
    rcases inner_loop_total hstl rest st₁ hlen₁
      (fun q hq => by rw [hkeys₁]; exact hmem q (by simp [hq])) with ⟨st', hloop, hlen'⟩
    refine ⟨st', ?_, hlen'⟩
    unfold inner_loop
    rw [hstep]
    exact hloop

theorem outer_loop_total {stl : Oracle} {n : ℕ} {pws : List (ℕ × ℕ)} (hstl : OracleOk stl n) :
    ∀ (k : ℕ) (st : LoopState), LenInv n st →
    (∀ pw ∈ pws, pw.1 ∈ alist_keys st.seasonals) →
    ∃ st', outer_loop stl pws k st = Except.ok st' ∧ LenInv n st'
  | 0, st, hlen, _ => ⟨st, rfl, hlen⟩
  | k + 1, st, hlen, hmem => by
    rcases inner_loop_total hstl pws st hlen hmem with ⟨st₁, hloop, hlen₁⟩
    have hkeys₁ := inner_loop_keys pws st st₁ hloop
    rcases outer_loop_total hstl k st₁ hlen₁
      (fun q hq => by rw [hkeys₁]; exact hmem q hq) with ⟨st', houter, hlen'⟩
    refine ⟨st', ?_, hlen'⟩
    unfold outer_loop
    rw [hloop]
    exact houter

theorem outer_loop_res_some {stl : Oracle} {pws : List (ℕ × ℕ)} :
    ∀ (k : ℕ) (st st' : LoopState), outer_loop stl pws k st = Except.ok st' →
    ((1 ≤ k ∧ pws ≠ []) ∨ ∃ r, st.res = some r) → ∃ r, st'.res = some r
  | 0, st, st', h, hcond => by
    unfold outer_loop at h
    simp only [Except.ok.injEq] at h
    rcases hcond with ⟨hk, -⟩ | hst
    · omega
    · rwa [← h]
  | k + 1, st, st', h, hcond => by
    unfold outer_loop at h
    split at h
    · simp at h
    · rename_i st₁ hloop
      have hst₁ : ∃ r, st₁.res = some r := by
        rcases hcond with ⟨-, hpws⟩ | hst
        · exact inner_loop_res_some pws st st₁ hloop (Or.inl hpws)
        · exact inner_loop_res_some pws st st₁ hloop (Or.inr hst)
      exact outer_loop_res_some k st₁ st' h (Or.inr hst₁)

theorem fit_eq_of_outer {stl : Oracle} {y : List ℚ} {ps : List ℕ}
    (hc : ¬ (ps = [] ∨ ∃ p ∈ ps, p ≤ 1)) {st : LoopState} {f : StlResult}
    (houter : outer_loop stl
      ((surviving y.length ps).zip (seasonal_windows (surviving y.length ps)))
      (if (surviving y.length ps).length = 1 then 1 else 2)
      ⟨y, init_seasonals (surviving y.length ps) y.length, none⟩ = Except.ok st)
    (hres : st.res = some f) :
    fit stl y ps
      = Except.ok ⟨f.trend, st.seasonals, zip_sub st.deseas f.trend, f.weights⟩ := by
  unfold fit
  rw [process_periods_eq_valid hc]
  simp only []
  rw [houter]
  simp only []
  rw [hres]

theorem fit_total {stl : Oracle} {y : List ℚ} {ps : List ℕ}
    (hne : ps ≠ []) (hgt1 : ∀ p ∈ ps, 1 < p)
    (hsmall : ∃ p ∈ ps, p ≤ y.length / 2) (hstl : OracleOk stl y.length) :
    ∃ D, fit stl y ps = Except.ok D ∧
      D.trend.length = y.length ∧ D.residuals.length = y.length ∧
      D.robust_weights.length = y.length ∧
      ∀ kv ∈ D.seasonal, kv.2.length = y.length := by
  have hc : ¬ (ps = [] ∨ ∃ p ∈ ps, p ≤ 1) := by
    rintro (rfl | ⟨p, hp, hple⟩)
    · exact hne rfl
    · have := hgt1 p hp
      omega
  rcases hsmall with ⟨p0, hp0, hp0le⟩
  have hp0sv : p0 ∈ surviving y.length ps := by
    unfold surviving
    exact List.mem_filter.mpr
      ⟨(List.perm_insertionSort (· ≤ ·) ps).symm.subset hp0, by simpa using hp0le⟩
  have hsv_ne : surviving y.length ps ≠ [] := List.ne_nil_of_mem hp0sv
  have hlen0 : LenInv y.length
      (⟨y, init_seasonals (surviving y.length ps) y.length, none⟩ : LoopState) := by
    refine ⟨rfl, ?_, ?_⟩
    · intro kv hkv
      rw [entries_init _ _ kv hkv]
      exact List.length_replicate _ _
    · intro r hr
      simp at hr
  have hmem0 : ∀ pw ∈ (surviving y.length ps).zip (seasonal_windows (surviving y.length ps)),
      pw.1 ∈ alist_keys
        ((⟨y, init_seasonals (surviving y.length ps) y.length, none⟩ : LoopState).seasonals) :=
    fun pw hpw => (mem_keys_init _ _ _).mpr (List.of_mem_zip hpw).1
  rcases outer_loop_total hstl (if (surviving y.length ps).length = 1 then 1 else 2)
    _ hlen0 hmem0 with ⟨st, houter, hlenst⟩
  have hpws_ne : (surviving y.length ps).zip (seasonal_windows (surviving y.length ps)) ≠ [] := by
    intro hnil
    have h1 := congrArg List.length hnil
    rw [List.length_zip] at h1
    simp only [seasonal_windows, List.length_map, List.length_range, min_self,
      List.length_nil] at h1
    exact hsv_ne (List.length_eq_zero.mp h1)
  have hk1 : 1 ≤ (if (surviving y.length ps).length = 1 then 1 else 2) := by
    split <;> omega
  rcases outer_loop_res_some _ _ st houter (Or.inl ⟨hk1, hpws_ne⟩) with ⟨f, hresf⟩
  refine ⟨⟨f.trend, st.seasonals, zip_sub st.deseas f.trend, f.weights⟩,
    fit_eq_of_outer hc houter hresf, ?_, ?_, ?_, ?_⟩
  · exact (hlenst.2.2 f hresf).1
  · rw [length_zip_sub]
    exact hlenst.1
  · exact (hlenst.2.2 f hresf).2
  · exact hlenst.2.1

/-! ## Reconstruction facts about a successful `fit` -/

theorem fit_ok_reconstruction {stl : Oracle} {y : List ℚ} {ps : List ℕ}
    {D : MSTLDecomposition} (hfit : fit stl y ps = Except.ok D) :
    (∀ i, i < y.length →
      D.trend.getD i 0 + entry_sum D.seasonal i + D.residuals.getD i 0 = y.getD i 0) ∧
    (alist_keys D.seasonal).Nodup ∧
    (∀ p, p ∈ alist_keys D.seasonal ↔ p ∈ surviving y.length ps) ∧
    D.residuals.length = y.length ∧
    (∀ i, i < y.length →
      D.residuals.getD i 0 = y.getD i 0 - entry_sum D.seasonal i - D.trend.getD i 0) := by
  rcases fit_ok_elim hfit with ⟨hc, st, f, houter, hres, hD⟩
  have hinv0 : CoreInv y
      (⟨y, init_seasonals (surviving y.length ps) y.length, none⟩ : LoopState) := by
    refine ⟨rfl, nodup_keys_init _ _, ?_⟩
    intro i hi
    simp only []
    rw [entry_sum_init, add_zero]
  have hinv := outer_loop_core _ _ _ houter hinv0
  obtain ⟨hlen, hnd, hsum⟩ := hinv
  have hkeys := outer_loop_keys _ _ _ houter
  have hresid : ∀ i, i < y.length →
      D.residuals.getD i 0 = st.deseas.getD i 0 - f.trend.getD i 0 := by
    intro i hi
    rw [hD]
    exact getD_zip_sub _ _ i (by rw [hlen]; exact hi)
  refine ⟨?_, ?_, ?_, ?_, ?_⟩
  · intro i hi
    rw [hresid i hi, hD]
    simp only []
    have := hsum i hi
    linear_combination this
  · rw [hD]
    exact hnd
  · intro p
    rw [hD]
    simp only []
    rw [hkeys]
    simp only []
    exact mem_keys_init _ _ _
  · rw [hD]
    simp only []
    rw [length_zip_sub]
    rw [hlen]
  · intro i hi
    rw [hresid i hi, hD]
    simp only []
    have := hsum i hi
    linear_combination this

/-! ## Error paths of `fit` -/

theorem fit_invalid_of_cond {stl : Oracle} {y : List ℚ} {ps : List ℕ}
    (h : ps = [] ∨ ∃ p ∈ ps, p ≤ 1) :
    fit stl y ps = Except.error invalid_input_error := by
  unfold fit
  rw [process_periods_eq_invalid h]

theorem fit_cases {stl : Oracle} {y : List ℚ} {ps : List ℕ}
    (hc : ¬ (ps = [] ∨ ∃ p ∈ ps, p ≤ 1)) :
    (∃ D, fit stl y ps = Except.ok D) ∨
    fit stl y ps = Except.error no_fit_error ∨
    ∃ e, fit stl y ps = Except.error e ∧
      (e = Error.panicked ∨ ∃ s, e = Error.stl s) := by
  rcases houter : outer_loop stl
      ((surviving y.length ps).zip (seasonal_windows (surviving y.length ps)))
      (if (surviving y.length ps).length = 1 then 1 else 2)
      ⟨y, init_seasonals (surviving y.length ps) y.length, none⟩ with e | st
  · right
    right
    refine ⟨e, ?_, outer_loop_err_shape _ _ _ houter⟩
    unfold fit
    rw [process_periods_eq_valid hc]
    simp only []
    rw [houter]
  · rcases hres : st.res with _ | f
    · right
      left
      unfold fit
      rw [process_periods_eq_valid hc]
      simp only []
      rw [houter]
      simp only []
      rw [hres]
    · left
      exact ⟨_, fit_eq_of_outer hc houter hres⟩

theorem surviving_nil {n : ℕ} {ps : List ℕ} (hbig : ∀ p ∈ ps, n / 2 < p) :
    surviving n ps = [] := by
  unfold surviving
  rw [List.filter_eq_nil_iff]
  intro p hp
  have := hbig p ((List.perm_insertionSort (· ≤ ·) ps).subset hp)
  simp
  omega

theorem fit_no_fit_of_nil {stl : Oracle} {y : List ℚ} {ps : List ℕ}
    (hc : ¬ (ps = [] ∨ ∃ p ∈ ps, p ≤ 1)) (hsv : surviving y.length ps = []) :
    fit stl y ps = Except.error no_fit_error := by
  unfold fit
  rw [process_periods_eq_valid hc]
  simp only []
  rw [hsv]
  rfl

/-! ## Sorting is permutation-invariant -/

theorem sort_eq_of_perm {ps₁ ps₂ : List ℕ} (h : ps₁.Perm ps₂) :
    List.insertionSort (· ≤ ·) ps₁ = List.insertionSort (· ≤ ·) ps₂ :=
  List.eq_of_perm_of_sorted
    ((List.perm_insertionSort _ ps₁).trans (h.trans (List.perm_insertionSort _ ps₂).symm))
    (List.sorted_insertionSort _ _) (List.sorted_insertionSort _ _)

theorem process_periods_perm (n : ℕ) {ps₁ ps₂ : List ℕ} (h : ps₁.Perm ps₂) :
    process_periods n ps₁ = process_periods n ps₂ := by
  unfold process_periods
  rw [sort_eq_of_perm h]

theorem fit_perm_eq {stl : Oracle} {y : List ℚ} {ps₁ ps₂ : List ℕ} (h : ps₁.Perm ps₂) :
    fit stl y ps₁ = fit stl y ps₂ := by
  unfold fit
  rw [process_periods_perm y.length h]

/-! ## The seasonal windows -/

theorem seasonal_windows_getD (ps : List ℕ) (i : ℕ) (hi : i < ps.length) :
    (seasonal_windows ps).getD i 0 = 7 + 4 * (i + 1) := by
  unfold seasonal_windows
  rw [List.getD_eq_getElem?_getD, List.getElem?_map, List.getElem?_range hi]
  rfl

theorem stl_const_ok (n : ℕ) : OracleOk stl_const n := by
  intro w d p hd
  exact ⟨_, rfl, by simpa using hd, by simpa using hd, by simpa using hd⟩

/-- Counting helper: counts in a filtered list. -/
theorem count_filter_bool (q : ℕ → Bool) : ∀ (l : List ℕ) (a : ℕ),
    (l.filter q).count a = if q a then l.count a else 0
  | [], a => by simp
  | x :: xs, a => by
    by_cases hx : q x
    · by_cases hxa : x = a
      · subst hxa
        simp [List.filter_cons, hx, List.count_cons, count_filter_bool q xs x]
      · simp [List.filter_cons, hx, List.count_cons, count_filter_bool q xs a, hxa]
    · by_cases hxa : x = a
      · subst hxa
        simp [List.filter_cons, hx, List.count_cons, count_filter_bool q xs x]
      · simp [List.filter_cons, hx, List.count_cons, count_filter_bool q xs a, hxa]

theorem fit_ok_seasonal_keys {stl : Oracle} {y : List ℚ} {ps : List ℕ}
    {D : MSTLDecomposition} (hfit : fit stl y ps = Except.ok D) :
    alist_keys D.seasonal = alist_keys (init_seasonals (surviving y.length ps) y.length) := by
  rcases fit_ok_elim hfit with ⟨hc, st, f, houter, hres, hD⟩
  rw [hD]
  exact outer_loop_keys _ _ _ houter

/-! ## The claims -/

/-- C1: for a series of length n ≥ 1 and a non-empty period collection
whose elements are all > 1 with at least one ≤ n/2, and an external STL
primitive every call of which succeeds with length-n sequences, `fit`
returns a successful decomposition whose trend, every seasonal component,
residuals and robust weights all have length exactly n. -/
theorem claim_C1 {stl : Oracle} {y : List ℚ} {ps : List ℕ}
    (hn : 1 ≤ y.length) (hne : ps ≠ []) (hgt1 : ∀ p ∈ ps, 1 < p)
    (hsmall : ∃ p ∈ ps, p ≤ y.length / 2) (hstl : OracleOk stl y.length) :
    ∃ D, fit stl y ps = Except.ok D ∧
      D.trend.length = y.length ∧
      (∀ kv ∈ D.seasonal, kv.2.length = y.length) ∧
      D.residuals.length = y.length ∧
      D.robust_weights.length = y.length := by
  rcases fit_total hne hgt1 hsmall hstl with ⟨D, hfit, h1, h2, h3, h4⟩
  exact ⟨D, hfit, h1, h4, h2, h3⟩

theorem claim_C1_witness :
    ∃ D, fit stl_const ([0, 0, 0, 0] : List ℚ) [2] = Except.ok D ∧
      D.trend.length = 4 ∧
      (∀ kv ∈ D.seasonal, kv.2.length = 4) ∧
      D.residuals.length = 4 ∧
      D.robust_weights.length = 4 := by
  have h := @claim_C1 stl_const [0, 0, 0, 0] [2] (by decide) (by decide) (by decide)
    (by decide) (stl_const_ok _)
  simpa using h

/-- C2: on a successful fit, the trend and robust weights are those of the
single most recent STL call — the last entry of the call trace, whose
period is the last (largest) surviving period — and the residuals equal,
elementwise, the deseasonalized series (the input minus the sum of every
period's final seasonal component) minus that trend. -/
theorem claim_C2 {stl : Oracle} {y : List ℚ} {ps : List ℕ} {D : MSTLDecomposition}
    (hfit : fit stl y ps = Except.ok D) :
    ∃ tr c, fit_t stl y ps = Except.ok (D, tr) ∧
      tr.getLast? = some c ∧
      (surviving y.length ps).getLast? = some c.period ∧
      D.trend = c.output.trend ∧
      D.robust_weights = c.output.weights ∧
      ∀ i, i < y.length →
        D.residuals.getD i 0
          = (y.getD i 0 - entry_sum D.seasonal i) - D.trend.getD i 0 := by
  rcases fit_t_of_fit_ok hfit with ⟨tr, hfit_t, -, -, c, hcl, hcper, htrend, hweights⟩
  rcases fit_ok_reconstruction hfit with ⟨-, -, -, -, hres⟩
  exact ⟨tr, c, hfit_t, hcl, hcper, htrend, hweights, fun i hi => hres i hi⟩

theorem claim_C2_witness :
    ∃ tr c, fit_t stl_const ([0, 0, 0, 0] : List ℚ) [2] = Except.ok
        (⟨[0, 0, 0, 0], [(2, [0, 0, 0, 0])], [0, 0, 0, 0], [0, 0, 0, 0]⟩, tr) ∧
      tr.getLast? = some c ∧
      (surviving ([0, 0, 0, 0] : List ℚ).length [2]).getLast? = some c.period ∧
      (⟨[0, 0, 0, 0], [(2, [0, 0, 0, 0])], [0, 0, 0, 0], [0, 0, 0, 0]⟩ :
          MSTLDecomposition).trend = c.output.trend ∧
      (⟨[0, 0, 0, 0], [(2, [0, 0, 0, 0])], [0, 0, 0, 0], [0, 0, 0, 0]⟩ :
          MSTLDecomposition).robust_weights = c.output.weights ∧
      ∀ i, i < ([0, 0, 0, 0] : List ℚ).length →
        (⟨[0, 0, 0, 0], [(2, [0, 0, 0, 0])], [0, 0, 0, 0], [0, 0, 0, 0]⟩ :
            MSTLDecomposition).residuals.getD i 0
          = (([0, 0, 0, 0] : List ℚ).getD i 0
              - entry_sum (⟨[0, 0, 0, 0], [(2, [0, 0, 0, 0])], [0, 0, 0, 0],
                  [0, 0, 0, 0]⟩ : MSTLDecomposition).seasonal i)
            - (⟨[0, 0, 0, 0], [(2, [0, 0, 0, 0])], [0, 0, 0, 0], [0, 0, 0, 0]⟩ :
                MSTLDecomposition).trend.getD i 0 :=
  @claim_C2 stl_const [0, 0, 0, 0] [2]
    ⟨[0, 0, 0, 0], [(2, [0, 0, 0, 0])], [0, 0, 0, 0], [0, 0, 0, 0]⟩
    (by with_unfolding_all decide)

/-- C3: for every successful fit and every index i < n, the trend plus the
sum over all surviving periods of the seasonal component plus the residual
equals the original series value, exactly (the embedding works over ℚ). -/
theorem claim_C3 {stl : Oracle} {y : List ℚ} {ps : List ℕ} {D : MSTLDecomposition}
    (hfit : fit stl y ps = Except.ok D) :
    ∀ i, i < y.length →
      D.trend.getD i 0 + entry_sum D.seasonal i + D.residuals.getD i 0 = y.getD i 0 :=
  fun i hi => (fit_ok_reconstruction hfit).1 i hi

theorem claim_C3_witness :
    1 < ([0, 0, 0, 0] : List ℚ).length ∧
    (⟨[0, 0, 0, 0], [(2, [0, 0, 0, 0])], [0, 0, 0, 0], [0, 0, 0, 0]⟩ :
        MSTLDecomposition).trend.getD 1 0
      + entry_sum (⟨[0, 0, 0, 0], [(2, [0, 0, 0, 0])], [0, 0, 0, 0],
          [0, 0, 0, 0]⟩ : MSTLDecomposition).seasonal 1
      + (⟨[0, 0, 0, 0], [(2, [0, 0, 0, 0])], [0, 0, 0, 0], [0, 0, 0, 0]⟩ :
          MSTLDecomposition).residuals.getD 1 0
      = ([0, 0, 0, 0] : List ℚ).getD 1 0 :=
  ⟨by decide,
   @claim_C3 stl_const [0, 0, 0, 0] [2]
    ⟨[0, 0, 0, 0], [(2, [0, 0, 0, 0])], [0, 0, 0, 0], [0, 0, 0, 0]⟩
    (by with_unfolding_all decide) 1 (by decide)⟩

/-- C4: `fit` returns the `InvalidInput` error exactly when the period
collection is empty or has an element ≤ 1 (i.e. its minimum is ≤ 1), and in
that case the external primitive is never consulted: the result does not
depend on the oracle at all. -/
theorem claim_C4 (stl : Oracle) (y : List ℚ) (ps : List ℕ) :
    (fit stl y ps = Except.error invalid_input_error ↔ ps = [] ∨ ∃ p ∈ ps, p ≤ 1) ∧
    ((ps = [] ∨ ∃ p ∈ ps, p ≤ 1) → ∀ stl₂ : Oracle, fit stl y ps = fit stl₂ y ps) := by
  constructor
  · constructor
    · intro hfit
      by_contra hc
      rcases @fit_cases stl y ps hc with ⟨D, hD⟩ | hno | ⟨e, he, hshape⟩
      · rw [hfit] at hD
        simp at hD
      · rw [hfit] at hno
        exact absurd (Except.error.inj hno) (by decide)
      · rw [hfit] at he
        have heq := Except.error.inj he
        rcases hshape with rfl | ⟨s, rfl⟩
        · exact absurd heq (by decide)
        · simp [invalid_input_error] at heq
    · exact fun h => fit_invalid_of_cond h
  · intro h stl₂
    rw [fit_invalid_of_cond h]
    rw [fit_invalid_of_cond h]

/-- C5: if the collection is non-empty, every period is > 1, and every
period exceeds n/2, `fit` fails with `NoFitProduced`, a different error
value than `InvalidInput`, and the loop body never runs: the result does
not depend on the oracle. -/
theorem claim_C5 {stl : Oracle} {y : List ℚ} {ps : List ℕ}
    (hne : ps ≠ []) (hgt1 : ∀ p ∈ ps, 1 < p) (hbig : ∀ p ∈ ps, y.length / 2 < p) :
    fit stl y ps = Except.error no_fit_error ∧
    no_fit_error ≠ invalid_input_error ∧
    ∀ stl₂ : Oracle, fit stl y ps = fit stl₂ y ps := by
  have hc : ¬ (ps = [] ∨ ∃ p ∈ ps, p ≤ 1) := by
    rintro (rfl | ⟨p, hp, hple⟩)
    · exact hne rfl
    · have := hgt1 p hp
      omega
  have hsv := surviving_nil hbig
  exact ⟨fit_no_fit_of_nil hc hsv, by decide,
    fun stl₂ => (fit_no_fit_of_nil hc hsv).trans (fit_no_fit_of_nil hc hsv).symm⟩

theorem claim_C5_witness :
    fit stl_const ([0] : List ℚ) [2] = Except.error no_fit_error ∧
    no_fit_error ≠ invalid_input_error ∧
    ∀ stl₂ : Oracle, fit stl_const ([0] : List ℚ) [2] = fit stl₂ ([0] : List ℚ) [2] :=
  claim_C5 (by decide) (by decide) (by decide)

/-- C6: the seasonal window at 0-based position i of the period list is
exactly 7 + 4·(i+1), an odd number, and depends only on the position (the
list's length), never on the periods' values. -/
theorem claim_C6 (ps : List ℕ) (i : ℕ) (hi : i < ps.length) :
    (seasonal_windows ps).getD i 0 = 7 + 4 * (i + 1) ∧
    Odd ((seasonal_windows ps).getD i 0) ∧
    ∀ ps₂ : List ℕ, ps₂.length = ps.length → seasonal_windows ps₂ = seasonal_windows ps := by
  refine ⟨seasonal_windows_getD ps i hi, ?_, ?_⟩
  · rw [seasonal_windows_getD ps i hi]
    exact ⟨2 * i + 5, by ring⟩
  · intro ps₂ h
    unfold seasonal_windows
    rw [h]

theorem claim_C6_witness :
    (seasonal_windows [3, 10]).getD 1 0 = 7 + 4 * (1 + 1) ∧
    Odd ((seasonal_windows [3, 10]).getD 1 0) ∧
    ∀ ps₂ : List ℕ, ps₂.length = ([3, 10] : List ℕ).length →
      seasonal_windows ps₂ = seasonal_windows [3, 10] :=
  claim_C6 [3, 10] 1 (by decide)

/-- C7: on a successful fit, the external primitive is called exactly
(number of surviving periods) × (outer iterations) times, where the outer
iteration count is 1 for a single surviving period and 2 otherwise; with a
single surviving period there is exactly one call and the seasonal map has
exactly one entry. -/
theorem claim_C7 {stl : Oracle} {y : List ℚ} {ps : List ℕ} {D : MSTLDecomposition}
    (hfit : fit stl y ps = Except.ok D) :
    ∃ tr, fit_t stl y ps = Except.ok (D, tr) ∧
      tr.length = (surviving y.length ps).length *
        (if (surviving y.length ps).length = 1 then 1 else 2) ∧
      ((surviving y.length ps).length = 1 → tr.length = 1 ∧ D.seasonal.length = 1) := by
  rcases fit_t_of_fit_ok hfit with ⟨tr, h1, h2, -, -⟩
  refine ⟨tr, h1, h2, fun hone => ⟨?_, ?_⟩⟩
  · rw [h2, hone]
    rfl
  · have hkeys := fit_ok_seasonal_keys hfit
    rcases List.length_eq_one.mp hone with ⟨p, hp⟩
    have hkp : alist_keys D.seasonal = [p] := by
      rw [hkeys, hp]
      rfl
    have hlenkeys := congrArg List.length hkp
    simpa [alist_keys] using hlenkeys

theorem claim_C7_witness :
    ∃ tr, fit_t stl_const ([0, 0, 0, 0] : List ℚ) [2] = Except.ok
        (⟨[0, 0, 0, 0], [(2, [0, 0, 0, 0])], [0, 0, 0, 0], [0, 0, 0, 0]⟩, tr) ∧
      tr.length = (surviving ([0, 0, 0, 0] : List ℚ).length [2]).length *
        (if (surviving ([0, 0, 0, 0] : List ℚ).length [2]).length = 1 then 1 else 2) ∧
      ((surviving ([0, 0, 0, 0] : List ℚ).length [2]).length = 1 →
        tr.length = 1 ∧
        (⟨[0, 0, 0, 0], [(2, [0, 0, 0, 0])], [0, 0, 0, 0], [0, 0, 0, 0]⟩ :
            MSTLDecomposition).seasonal.length = 1) :=
  @claim_C7 stl_const [0, 0, 0, 0] [2]
    ⟨[0, 0, 0, 0], [(2, [0, 0, 0, 0])], [0, 0, 0, 0], [0, 0, 0, 0]⟩
    (by with_unfolding_all decide)

/-- C8: permuting the requested period collection changes nothing: `fit`
returns identical results (including errors), because normalization sorts
the collection before anything else; the mutated collection is identical
too. -/
theorem claim_C8 (stl : Oracle) (y : List ℚ) {ps₁ ps₂ : List ℕ} (hperm : ps₁.Perm ps₂) :
    fit stl y ps₁ = fit stl y ps₂ ∧
    process_periods y.length ps₁ = process_periods y.length ps₂ :=
  ⟨fit_perm_eq hperm, process_periods_perm y.length hperm⟩

theorem claim_C8_witness :
    fit stl_const ([0, 0] : List ℚ) [168, 24] = fit stl_const ([0, 0] : List ℚ) [24, 168] ∧
    process_periods ([0, 0] : List ℚ).length [168, 24]
      = process_periods ([0, 0] : List ℚ).length [24, 168] :=
  claim_C8 stl_const [0, 0] (List.Perm.swap 24 168 [])

/-- C9: `process_periods` always leaves the caller's collection sorted
ascending; on `InvalidInput` it is exactly a permutation (the sort) of the
original collection; on success it holds exactly the original elements
that are ≤ n/2, with multiplicity. -/
theorem claim_C9 (n : ℕ) (ps : List ℕ) :
    List.Sorted (· ≤ ·) (process_periods n ps).1 ∧
    ((process_periods n ps).2 = Except.error invalid_input_error →
      (process_periods n ps).1.Perm ps) ∧
    ((process_periods n ps).2 = Except.ok () →
      ∀ p : ℕ, (process_periods n ps).1.count p
        = if p ≤ n / 2 then ps.count p else 0) := by
  by_cases hc : ps = [] ∨ ∃ p ∈ ps, p ≤ 1
  · rw [process_periods_eq_invalid hc]
    refine ⟨List.sorted_insertionSort _ _, fun _ => List.perm_insertionSort _ _, ?_⟩
    intro h
    simp at h
  · rw [process_periods_eq_valid hc]
    refine ⟨?_, ?_, ?_⟩
    · exact (List.sorted_insertionSort _ _).sublist (List.filter_sublist _)
    · intro h
      simp [invalid_input_error] at h
    · intro _ p
      unfold surviving
      rw [count_filter_bool]
      rw [(List.perm_insertionSort (· ≤ ·) ps).count_eq p]
      simp

/-- C10: after a successful fit, the seasonal accessor answers `some`
exactly for the distinct surviving periods (and `none` for everything
else, including filtered-out requests); the map's keys are duplicate-free
(one entry per distinct surviving period), and each entry holds the
seasonal component of the most recent STL call for that period. -/
theorem claim_C10 {stl : Oracle} {y : List ℚ} {ps : List ℕ} {D : MSTLDecomposition}
    (hfit : fit stl y ps = Except.ok D) :
    (alist_keys D.seasonal).Nodup ∧
    (∀ p : ℕ, (D.seasonal_get p).isSome ↔ p ∈ surviving y.length ps) ∧
    ∃ tr, fit_t stl y ps = Except.ok (D, tr) ∧
      ∀ p ∈ surviving y.length ps,
        ∃ v, D.seasonal_get p = some v ∧ last_seasonal_for tr p = some v := by
  rcases fit_ok_reconstruction hfit with ⟨-, hnd, hkeys, -, -⟩
  rcases fit_t_of_fit_ok hfit with ⟨tr, h1, -, hlastseas, -⟩
  refine ⟨hnd, ?_, tr, h1, ?_⟩
  · intro p
    unfold MSTLDecomposition.seasonal_get
    rw [alist_get_isSome_iff]
    exact hkeys p
  · intro p hp
    rcases hlastseas p hp with ⟨v, hv1, hv2⟩
    exact ⟨v, by unfold MSTLDecomposition.seasonal_get; exact hv1, hv2⟩

theorem claim_C10_witness :
    (alist_keys (⟨[0, 0, 0, 0], [(2, [0, 0, 0, 0])], [0, 0, 0, 0], [0, 0, 0, 0]⟩ :
        MSTLDecomposition).seasonal).Nodup ∧
    (∀ p : ℕ, ((⟨[0, 0, 0, 0], [(2, [0, 0, 0, 0])], [0, 0, 0, 0], [0, 0, 0, 0]⟩ :
        MSTLDecomposition).seasonal_get p).isSome ↔
        p ∈ surviving ([0, 0, 0, 0] : List ℚ).length [2, 2]) ∧
    ∃ tr, fit_t stl_const ([0, 0, 0, 0] : List ℚ) [2, 2] = Except.ok
        (⟨[0, 0, 0, 0], [(2, [0, 0, 0, 0])], [0, 0, 0, 0], [0, 0, 0, 0]⟩, tr) ∧
      ∀ p ∈ surviving ([0, 0, 0, 0] : List ℚ).length [2, 2],
        ∃ v, (⟨[0, 0, 0, 0], [(2, [0, 0, 0, 0])], [0, 0, 0, 0], [0, 0, 0, 0]⟩ :
            MSTLDecomposition).seasonal_get p = some v ∧
          last_seasonal_for tr p = some v :=
  @claim_C10 stl_const [0, 0, 0, 0] [2, 2]
    ⟨[0, 0, 0, 0], [(2, [0, 0, 0, 0])], [0, 0, 0, 0], [0, 0, 0, 0]⟩
    (by with_unfolding_all decide)

end Mstl
